import Mathlib

/-!
Verification development for the rescan repository.

The definitions below are a shallow embedding of the Python sources:
`src/plex.py` (library resolution and the startup reconciliation walk),
`src/database.py` (the known-file store), `src/settings.py` (configuration),
and `src/main.py` (the batch/debounce scan manager and its background worker).
Timestamps are modelled as exact rationals, the filesystem walk as an
explicit enumeration function, and the SQLite store as a list of rows.
-/

/-! ## Path helpers (model of the pathlib operations used by the code) -/

/-- Index of the last occurrence of a dot in a character list
(model of Python `str.rfind`, restricted to the dot character). -/
def rfindDot : List Char → Option Nat
| [] => none
| c :: rest =>
  match rfindDot rest with
  | some i => some (i + 1)
  | none => if c = '.' then some 0 else none

/-- Model of `pathlib.PurePath.suffix` applied to a file name: the
substring from the last dot, provided that dot is neither the first nor
the last character; otherwise the empty string. -/
def pathSuffix (file : String) : String :=
  match rfindDot file.data with
  | none => ""
  | some i =>
    if 0 < i ∧ i < file.data.length - 1 then String.mk (file.data.drop i) else ""

/-- ASCII lowering of one character, as `str.lower` acts on the ASCII
range (media extensions in this program are ASCII). -/
def charLower (c : Char) : Char :=
  if 'A' ≤ c ∧ c ≤ 'Z' then Char.ofNat (c.toNat + 32) else c

/-- Model of `str.lower` on ASCII strings. -/
def strLower (s : String) : String := String.mk (s.data.map charLower)

/-- Boolean string prefix test: model of Python `s.startswith(pre)`. -/
def startsWithStr (s pre : String) : Bool := pre.data.isPrefixOf s.data

/-- Model of `str(Path(root) / file)` for a slash-normalised directory
`root` (as produced by `os.walk`) and a bare file name. -/
def joinPath (root file : String) : String := root ++ "/" ++ file

/-! ## Library resolution (src/plex.py) -/

/-- Embedding of the `LibraryInfo` named tuple of `src/plex.py`. -/
structure LibraryInfo where
  title : String
  key : String
  locations : List String
  library_type : String
  agent : String
  scanner : String
deriving DecidableEq

/-- Embedding of `Plex.find_library_by_path` (src/plex.py lines 87-95):
scan the sections in order and return the first one having a location
that is a prefix of the file path. -/
def find_library_by_path : List LibraryInfo → String → Option LibraryInfo
| [], _ => none
| s :: rest, fp =>
  if s.locations.any (fun loc => startsWithStr fp loc) then some s
  else find_library_by_path rest fp

/-- Whether a section owns a path, i.e. some of its locations is a
prefix of the path. -/
def owns (s : LibraryInfo) (fp : String) : Bool :=
  s.locations.any (fun loc => startsWithStr fp loc)

/-- Length of the longest location of `s` that is a prefix of `fp`. -/
def matchLen (s : LibraryInfo) (fp : String) : Nat :=
  ((s.locations.filter (fun loc => startsWithStr fp loc)).map
    (fun loc => loc.data.length)).foldl max 0

/-- The resolution rule as the spec words it (section 3 of the spec):
map a file path to its owning library via longest-applicable-prefix
match against the libraries' root locations. -/
def find_library_by_path_longest (sections : List LibraryInfo) (fp : String) :
    Option LibraryInfo :=
  (sections.filter (fun s => owns s fp)).foldl
    (fun acc s =>
      match acc with
      | none => some s
      | some b => if matchLen b fp < matchLen s fp then some s else some b)
    none

/-! ## Startup reconciliation (Plex.full_scan, src/plex.py lines 143-188) -/

/-- The media/hidden-file filter of `full_scan`:
`file_path.suffix.lower() in media_extensions and not
file_path.name.startswith(".")`. -/
def qualifies (mediaExts : List String) (file : String) : Bool :=
  mediaExts.contains (strLower (pathSuffix file)) && !(startsWithStr file ".")

/-- Body of the inner loop of `full_scan` for one `(root, file)` walk
entry: returns the scan request it issues, if any. The `known` argument
models the SQL existence lookup
`SELECT 1 FROM plex_library_files WHERE library_key = ? AND file_path = ?`. -/
def emitOne (sections : List LibraryInfo) (mediaExts : List String)
    (known : String → String → Bool) (rf : String × String) :
    Option (String × String) :=
  let fp := joinPath rf.1 rf.2
  if qualifies mediaExts rf.2 then
    match find_library_by_path sections fp with
    | some lib => if known lib.key fp then none else some (lib.key, fp)
    | none => none
  else none

/-- The flattened walk enumeration of `full_scan`: for each configured
root path that exists, the `(directory, file-name)` pairs produced by
`os.walk`, in order. -/
def walkItems (paths : List String) (existsP : String → Bool)
    (walk : String → List (String × String)) : List (String × String) :=
  (paths.filter existsP).flatMap walk

/-- Embedding of `Plex.full_scan` (success path, no exception raised):
the list of scan requests `(library key, file path)` issued, in order. -/
def full_scan (paths : List String) (existsP : String → Bool)
    (walk : String → List (String × String)) (sections : List LibraryInfo)
    (mediaExts : List String) (known : String → String → Bool) :
    List (String × String) :=
  (paths.filter existsP).flatMap
    (fun lp => (walk lp).filterMap (emitOne sections mediaExts known))

/-! ## Reconciliation with fallible per-item calls (for the error-handling
claim).  In `full_scan` a single `try` block wraps the whole walk, so an
exception raised while processing one file aborts all remaining files
and is caught only at the function boundary. -/

/-- One walk entry processed with fallible known-file lookup and fallible
scan-request call; an error models a raised exception propagating out of
the per-item code. -/
def processItemE (sections : List LibraryInfo) (mediaExts : List String)
    (knownE : String → String → Except Unit Bool)
    (sendE : String → String → Except Unit Unit)
    (rf : String × String) : Except Unit (Option (String × String)) :=
  let fp := joinPath rf.1 rf.2
  if qualifies mediaExts rf.2 then
    match find_library_by_path sections fp with
    | some lib =>
      match knownE lib.key fp with
      | Except.error e => Except.error e
      | Except.ok true => Except.ok none
      | Except.ok false =>
        match sendE lib.key fp with
        | Except.error e => Except.error e
        | Except.ok _ => Except.ok (some (lib.key, fp))
    | none => Except.ok none
  else Except.ok none

/-- Sequential processing of the walk under the single `try` of
`full_scan`: the first raised exception stops the walk (the remaining
entries are never processed) and is caught at the function boundary.
Returns the requests issued before the abort and whether an exception
occurred. -/
def full_scanE_go (sections : List LibraryInfo) (mediaExts : List String)
    (knownE : String → String → Except Unit Bool)
    (sendE : String → String → Except Unit Unit) :
    List (String × String) → List (String × String) × Bool
| [] => ([], false)
| rf :: rest =>
  match processItemE sections mediaExts knownE sendE rf with
  | Except.error _ => ([], true)
  | Except.ok o =>
    ((o.toList ++ (full_scanE_go sections mediaExts knownE sendE rest).1),
     (full_scanE_go sections mediaExts knownE sendE rest).2)

/-- Embedding of `Plex.full_scan` with fallible per-item calls. -/
def full_scanE (paths : List String) (existsP : String → Bool)
    (walk : String → List (String × String)) (sections : List LibraryInfo)
    (mediaExts : List String)
    (knownE : String → String → Except Unit Bool)
    (sendE : String → String → Except Unit Unit) :
    List (String × String) × Bool :=
  full_scanE_go sections mediaExts knownE sendE (walkItems paths existsP walk)

/-- The requests one successfully processed entry contributes. -/
def okEmits : Except Unit (Option (String × String)) → List (String × String)
| Except.ok (some x) => [x]
| Except.ok none => []
| Except.error _ => []

/-! ## The known-file store (src/database.py) -/

/-- A row of the `plex_library_files` table:
`id INTEGER PRIMARY KEY AUTOINCREMENT, library_key INTEGER NOT NULL,
file_path TEXT NOT NULL UNIQUE`. -/
structure DBRow where
  id : Nat
  library_key : Int
  file_path : String
deriving DecidableEq

namespace DatabaseManager

/-- Whether inserting a row with this `file_path` violates the table's
UNIQUE constraint, which is declared on `file_path` alone. -/
def rowConflicts (rows : List DBRow) (p : String) : Bool :=
  rows.any (fun r => r.file_path == p)

/-- One `INSERT OR IGNORE INTO plex_library_files (library_key, file_path)`:
the row is appended unless the UNIQUE constraint on `file_path` fires, in
which case the statement is ignored.  The second component is the next
AUTOINCREMENT id. -/
def insertRowOrIgnore (st : List DBRow × Nat) (kp : Int × String) :
    List DBRow × Nat :=
  if rowConflicts st.1 kp.2 then st
  else (st.1 ++ [⟨st.2, kp.1, kp.2⟩], st.2 + 1)

/-- Embedding of `DatabaseManager.insert_plex_library_files`
(src/database.py lines 40-58): `executemany` of INSERT OR IGNORE over the
data list, in order. -/
def insert_plex_library_files (st : List DBRow × Nat)
    (data : List (Int × String)) : List DBRow × Nat :=
  data.foldl insertRowOrIgnore st

/-- State of the database file at `db_path`: `none` when no file exists;
otherwise the file, whose `plex_library_files` table may or may not have
been created yet. -/
structure SQLiteFile where
  plex_library_files : Option (List DBRow)
deriving DecidableEq

/-- Model of `if os.path.exists(self.db_path): os.remove(self.db_path)`
in `DatabaseManager.connect`. -/
def removeIfExists (f : Option SQLiteFile) : Option SQLiteFile :=
  if f.isSome then none else f

/-- Model of `sqlite3.connect(self.db_path)`: opens the existing file or
creates a fresh one with no tables. -/
def sqliteConnect (f : Option SQLiteFile) : SQLiteFile := f.getD ⟨none⟩

/-- Model of `CREATE TABLE IF NOT EXISTS plex_library_files (...)`. -/
def createTableIfNotExists (f : SQLiteFile) : SQLiteFile :=
  match f.plex_library_files with
  | some _ => f
  | none => ⟨some []⟩

/-- Embedding of `DatabaseManager.connect` (src/database.py lines 15-38),
success path: remove any existing database file, connect (creating a
fresh file), then create the table if absent. -/
def connect (f : Option SQLiteFile) : SQLiteFile :=
  createTableIfNotExists (sqliteConnect (removeIfExists f))

end DatabaseManager

/-! ## Configuration (src/settings.py) and handler wiring (src/main.py) -/

/-- Embedding of `PlexSettings`. -/
structure PlexSettings where
  url : String
  token : String
deriving DecidableEq

/-- Embedding of the `Settings` model of src/settings.py: its only
fields are `log_level`, `media_extensions`, `library_paths` and `plex`. -/
structure Settings where
  log_level : String
  media_extensions : List String
  library_paths : List String
  plex : PlexSettings
deriving DecidableEq

/-- The default `Settings` value constructed by `Settings()`. -/
def defaultSettings : Settings :=
  ⟨"INFO",
   [".mkv", ".mp4", ".avi", ".mov", ".wmv", ".flv", ".webm", ".mp3",
    ".flac", ".wav", ".aac", ".ogg", ".m4a"],
   ["/path/to/plex/library"],
   ⟨"http://localhost:32400", ""⟩⟩

/-! ## Duplicate-worker interleaving (src/main.py lines 43-47)

`add_scan_request` releases the lock and then runs
`if self.timer_thread is None or not self.timer_thread.is_alive():`
followed by creating and starting a new thread.  The check and the start
are separate unsynchronised steps; the model below interleaves two
concurrent callers at that granularity. -/

/-- Program counter of one caller inside the unlocked check-and-start. -/
inductive SpawnPC
| check
| start
| done
deriving DecidableEq

/-- Local state of one caller: where it is, and what the check observed. -/
structure SpawnThread where
  pc : SpawnPC
  observedNoWorker : Bool
deriving DecidableEq

/-- Shared state plus both callers: whether a worker thread is alive and
how many worker threads were ever started. -/
structure SpawnSys where
  timerAlive : Bool
  workersStarted : Nat
  threadA : SpawnThread
  threadB : SpawnThread
deriving DecidableEq

/-- One step of one caller: `check` evaluates
`timer_thread is None or not timer_thread.is_alive()` and records the
result; `start` creates and starts a worker thread exactly when the
recorded check succeeded. -/
def stepT (alive : Bool) (started : Nat) (th : SpawnThread) :
    Bool × Nat × SpawnThread :=
  match th.pc with
  | SpawnPC.check => (alive, started, ⟨SpawnPC.start, !alive⟩)
  | SpawnPC.start =>
    if th.observedNoWorker then
      (true, started + 1, ⟨SpawnPC.done, th.observedNoWorker⟩)
    else (alive, started, ⟨SpawnPC.done, th.observedNoWorker⟩)
  | SpawnPC.done => (alive, started, th)

/-- Scheduler step: run one step of caller A (`true`) or B (`false`). -/
def sysStep (s : SpawnSys) (isA : Bool) : SpawnSys :=
  if isA then
    match stepT s.timerAlive s.workersStarted s.threadA with
    | (a, n, th) =>
      { timerAlive := a, workersStarted := n, threadA := th,
        threadB := s.threadB }
  else
    match stepT s.timerAlive s.workersStarted s.threadB with
    | (a, n, th) =>
      { timerAlive := a, workersStarted := n, threadA := s.threadA,
        threadB := th }

/-- Run a schedule (a list of choices of which caller steps next). -/
def runSched (s : SpawnSys) : List Bool → SpawnSys
| [] => s
| b :: rest => runSched (sysStep s b) rest

/-- Initial state: no worker thread yet, both callers about to check. -/
def initSpawn : SpawnSys :=
  ⟨false, 0, ⟨SpawnPC.check, false⟩, ⟨SpawnPC.check, false⟩⟩

/-! ## The batch scan manager (src/main.py lines 15-92)

Timestamps (`time.time()` values) are modelled as exact rationals.  The
pending dictionary is an association list from the scan key to the
`PendingScan`; insertion overwrites in place, as a Python dict does.
A run is a trace of timed events: `add` events (calls of
`add_scan_request`) and `poll` events (iterations of the background
worker loop `_batch_processor`, each such iteration being atomic with
respect to the lock-protected map). -/

/-- Timestamps, in seconds. -/
abbrev Time := ℚ

/-- Embedding of the `PendingScan` named tuple of src/main.py. -/
structure PendingScan where
  library_key : String
  parent_dir : String
  timestamp : Time
deriving DecidableEq

/-- The dictionary key `f"{library_key}:{parent_dir}"`. -/
def scanKey (library_key parent_dir : String) : String :=
  library_key ++ ":" ++ parent_dir

namespace BatchScanManager

/-- The mutable state of a `BatchScanManager`: the pending dictionary
and the stop event. -/
structure BatchState where
  pending : List (String × PendingScan)
  stopped : Bool
deriving DecidableEq

/-- Fresh state built by `BatchScanManager.__init__`. -/
def initState : BatchState := ⟨[], false⟩

/-- Dictionary write `self.pending_scans[scan_key] = ...`: overwrite the
existing binding in place, or append a new one. -/
def insertPending : List (String × PendingScan) → String → PendingScan →
    List (String × PendingScan)
| [], k, v => [(k, v)]
| (k', v') :: rest, k, v =>
  if k' = k then (k, v) :: rest else (k', v') :: insertPending rest k v

/-- Dictionary lookup by scan key. -/
def lookupPending : List (String × PendingScan) → String → Option PendingScan
| [], _ => none
| (k', v) :: rest, k => if k' = k then some v else lookupPending rest k

/-- Embedding of `BatchScanManager.add_scan_request` (lines 32-47) at
call time `t`: store a fresh `PendingScan` under the scan key.  (The
check-and-start of the worker thread affects only whether poll events
occur; it is analysed separately by the spawn model above.) -/
def add_scan_request (s : BatchState) (library_key parent_dir : String)
    (t : Time) : BatchState :=
  { s with
    pending := insertPending s.pending (scanKey library_key parent_dir)
      ⟨library_key, parent_dir, t⟩ }

/-- The readiness test of `_batch_processor`:
`current_time - pending_scan.timestamp >= self.delay_seconds`. -/
def isReady (delay t : Time) (v : PendingScan) : Bool :=
  decide (delay ≤ t - v.timestamp)

/-- One iteration of the `_batch_processor` loop at time `t`: if the
stop event is set the loop body does not run; otherwise every ready
entry is removed from the map and emitted as a scan request. -/
def pollStep (delay : Time) (s : BatchState) (t : Time) :
    BatchState × List PendingScan :=
  if s.stopped then (s, [])
  else
    (⟨s.pending.filter (fun kv => !isReady delay t kv.2), s.stopped⟩,
     (s.pending.filter (fun kv => isReady delay t kv.2)).map (fun kv => kv.2))

/-- A timed event: a call of `add_scan_request` or one worker iteration. -/
inductive BEvent
| add (library_key parent_dir : String)
| poll
deriving DecidableEq

/-- Run a trace of timed events from a state, collecting the scan
requests emitted by the background worker, each tagged with the time of
the iteration that emitted it. -/
def runFrom (delay : Time) : BatchState → List (Time × BEvent) →
    BatchState × List (Time × PendingScan)
| s, [] => (s, [])
| s, (t, BEvent.add l d) :: rest => runFrom delay (add_scan_request s l d t) rest
| s, (t, BEvent.poll) :: rest =>
  ((runFrom delay (pollStep delay s t).1 rest).1,
   ((pollStep delay s t).2.map (fun v => (t, v))) ++
     (runFrom delay (pollStep delay s t).1 rest).2)

/-- Embedding of `BatchScanManager.shutdown` (lines 75-92): set the stop
event, snapshot and clear the pending map, and emit one scan request per
snapshotted entry (in map order). -/
def shutdown (s : BatchState) : BatchState × List PendingScan :=
  (⟨[], true⟩, s.pending.map (fun kv => kv.2))

/-- The emitted requests whose library key and parent directory are the
given pair. -/
def emsFor (library_key parent_dir : String)
    (ems : List (Time × PendingScan)) : List (Time × PendingScan) :=
  ems.filter (fun e =>
    e.2.library_key == library_key && e.2.parent_dir == parent_dir)

/-- The times of the `add` events of a trace for the given pair, in
trace order. -/
def addTimes (library_key parent_dir : String) :
    List (Time × BEvent) → List Time
| [] => []
| (t, BEvent.add l d) :: rest =>
  if l = library_key ∧ d = parent_dir then
    t :: addTimes library_key parent_dir rest
  else addTimes library_key parent_dir rest
| (_, BEvent.poll) :: rest => addTimes library_key parent_dir rest

/-- Every binding of the pending map sits under the scan key of its own
pair; `add_scan_request` establishes this by construction. -/
def WFpending (l : List (String × PendingScan)) : Prop :=
  ∀ kv ∈ l, kv.1 = scanKey kv.2.library_key kv.2.parent_dir

/-- The pending map binds each scan key at most once (a dict). -/
def NodupKeys (l : List (String × PendingScan)) : Prop :=
  (l.map (fun kv => kv.1)).Nodup

/-- An event does not collide with the given pair's scan key: any `add`
whose f-string key equals the pair's key is an `add` of that very pair.
(Distinct pairs can share a key when a library key or directory contains
a colon; such collisions are excluded by hypothesis.) -/
def collideFree (library_key parent_dir : String) (e : Time × BEvent) : Prop :=
  match e.2 with
  | BEvent.add l d =>
    scanKey l d = scanKey library_key parent_dir →
      l = library_key ∧ d = parent_dir
  | BEvent.poll => True

instance (library_key parent_dir : String) (e : Time × BEvent) :
    Decidable (collideFree library_key parent_dir e) := by
  unfold collideFree
  match e.2 with
  | BEvent.add l d => exact inferInstance
  | BEvent.poll => exact inferInstance

/-- Last element of a nonempty time list (0 for the empty list). -/
def lastT : List Time → Time
| [] => 0
| [t] => t
| _ :: t :: rest => lastT (t :: rest)

end BatchScanManager

/-- Configuration and state of one `BatchScanManager` object. -/
structure BatchScanManagerObj where
  delay_seconds : ℚ
  state : BatchScanManager.BatchState

/-- `BatchScanManager.__init__` with the given `delay_seconds` argument. -/
def BatchScanManager.init (delay_seconds : ℚ) : BatchScanManagerObj :=
  ⟨delay_seconds, BatchScanManager.initState⟩

/-- The fields of `RescanEventHandler` relevant here. -/
structure RescanEventHandler where
  settings : Settings
  batch_manager : BatchScanManagerObj

/-- Embedding of `RescanEventHandler.__init__` (src/main.py lines
96-100): the batch manager is constructed with the literal argument
`delay_seconds=30`. -/
def RescanEventHandler.init (settings : Settings) : RescanEventHandler :=
  ⟨settings, BatchScanManager.init 30⟩

/-! ## Claim C9: constructing the database manager destroys any existing store -/

/-- C9: for every prior state of the database file (absent, present with
the table, or present without it), `DatabaseManager.connect` leaves a
database whose `plex_library_files` table exists and is empty: no
known-file record survives from one process run to the next. -/
theorem C9_connect_destroys_existing_store (f : Option DatabaseManager.SQLiteFile) :
    DatabaseManager.connect f = ⟨some []⟩ := by
  cases f <;> rfl

/-! ## Claim C7: the coalescer window is a hardcoded constant, not configuration -/

/-- C7 counterexample: the delay used by the coalescer is the literal 30
written in `RescanEventHandler.__init__`; it is the same for two
distinct settings objects, and the `Settings` model has no
`delay_seconds` field at all (its fields are exactly `log_level`,
`media_extensions`, `library_paths`, `plex`), so the window is not a
value consumed from configuration. -/
theorem C7_counterexample :
    (RescanEventHandler.init defaultSettings).batch_manager.delay_seconds = 30 ∧
    (RescanEventHandler.init
        { defaultSettings with log_level := "DEBUG" }).batch_manager.delay_seconds = 30 ∧
    defaultSettings ≠ { defaultSettings with log_level := "DEBUG" } := by
  refine ⟨rfl, rfl, by decide⟩

/-- C7 amended: for every loaded settings object, the quiet-period
window of the event coalescer is the constant 30 seconds fixed in the
program (`BatchScanManager(plex, delay_seconds=30)`); configuration
plays no role in it. -/
theorem C7_delay_is_constant_30 (s : Settings) :
    (RescanEventHandler.init s).batch_manager.delay_seconds = 30 := rfl

/-! ## Claim C8: the worker check-and-start admits duplicate workers -/

/-- C8: the check `timer_thread is None or not timer_thread.is_alive()`
and the subsequent thread start are performed outside the lock, so two
concurrent `add_scan_request` callers can both observe no live worker
and both start one.  Under the schedule A-check, B-check, A-start, a
worker is already alive, and B's start then brings the number of started
workers to two: two workers drain the pending map concurrently. -/
theorem C8_duplicate_worker_interleaving :
    (runSched initSpawn [true, false, true]).timerAlive = true ∧
    (runSched initSpawn [true, false, true, false]).workersStarted = 2 := by
  decide

/-! ## Claim C3: library resolution is first-match, not longest-prefix -/

/-- A library whose single root location "/a" precedes a more specific
one in the enumeration order. -/
def libOuter : LibraryInfo := ⟨"Outer", "1", ["/a"], "movie", "ag", "sc"⟩

/-- A library rooted at the longer location "/a/b". -/
def libInner : LibraryInfo := ⟨"Inner", "2", ["/a/b"], "movie", "ag", "sc"⟩

/-- C3 counterexample: the path "/a/b/f.mkv" is matched by locations of
two libraries with different lengths; `find_library_by_path` returns the
first library in enumeration order (the "/a" one), not the owner of the
longest matching location prefix (the "/a/b" one). -/
theorem C3_counterexample :
    find_library_by_path [libOuter, libInner] "/a/b/f.mkv" = some libOuter ∧
    find_library_by_path_longest [libOuter, libInner] "/a/b/f.mkv" = some libInner ∧
    libOuter ≠ libInner := by
  decide

/-- C3 amended: `find_library_by_path` selects the owning library by
first match in enumeration order: it returns exactly the first section
of the list having some root location that is a prefix of the path. -/
theorem C3_first_match_in_enumeration_order (sections : List LibraryInfo)
    (fp : String) :
    find_library_by_path sections fp = sections.find? (fun s => owns s fp) := by
  induction sections with
  | nil => rfl
  | cons s rest ih =>
    by_cases h : s.locations.any (fun loc => startsWithStr fp loc) = true
    · rw [find_library_by_path, if_pos h, List.find?_cons_of_pos]
      exact h
    · rw [find_library_by_path, if_neg h, List.find?_cons_of_neg, ih]
      simpa [owns] using h

/-! ## Claim C6: the known-file table is unique on file_path alone -/

/-- Unfolding of the bulk insert on a cons cell. -/
theorem insert_files_cons (st : List DBRow × Nat) (kp : Int × String)
    (data : List (Int × String)) :
    DatabaseManager.insert_plex_library_files st (kp :: data) =
      DatabaseManager.insert_plex_library_files
        (DatabaseManager.insertRowOrIgnore st kp) data := rfl

/-- The bulk insert never rewrites or removes existing rows: the prior
row list is a prefix of the resulting one. -/
theorem insert_files_keeps_rows (data : List (Int × String)) :
    ∀ st : List DBRow × Nat,
      st.1 <+: (DatabaseManager.insert_plex_library_files st data).1 := by
  induction data with
  | nil => intro st; exact List.prefix_refl _
  | cons kp rest ih =>
    intro st
    rw [insert_files_cons]
    refine List.IsPrefix.trans ?_ (ih (DatabaseManager.insertRowOrIgnore st kp))
    unfold DatabaseManager.insertRowOrIgnore
    by_cases h : DatabaseManager.rowConflicts st.1 kp.2 = true
    · simp [h]
    · simp [h]

/-- The bulk insert preserves the UNIQUE constraint on `file_path`. -/
theorem insert_files_nodup (data : List (Int × String)) :
    ∀ st : List DBRow × Nat,
      (st.1.map (fun r => r.file_path)).Nodup →
      ((DatabaseManager.insert_plex_library_files st data).1.map
        (fun r => r.file_path)).Nodup := by
  induction data with
  | nil => intro st h; exact h
  | cons kp rest ih =>
    intro st h
    rw [insert_files_cons]
    refine ih _ ?_
    unfold DatabaseManager.insertRowOrIgnore
    by_cases hc : DatabaseManager.rowConflicts st.1 kp.2 = true
    · simpa [hc] using h
    · have hnotin : ∀ r ∈ st.1, ¬ r.file_path = kp.2 := by
        intro r hr
        have := List.any_eq_false.mp (Bool.not_eq_true _ ▸ hc) r hr
        simpa using this
      rw [if_neg hc]
      simp only [List.map_append, List.map_cons, List.map_nil]
      rw [List.nodup_append]
      refine ⟨h, List.nodup_singleton _, ?_⟩
      intro p hp hq
      rcases List.mem_map.mp hp with ⟨r, hr, hrp⟩
      rcases List.mem_singleton.mp hq
      exact hnotin r hr hrp

/-- A path is present after the bulk insert exactly when it was present
before or occurs in the inserted data. -/
theorem insert_files_mem (data : List (Int × String)) :
    ∀ (st : List DBRow × Nat) (p : String),
      (∃ r ∈ (DatabaseManager.insert_plex_library_files st data).1,
          r.file_path = p) ↔
        (∃ r ∈ st.1, r.file_path = p) ∨ p ∈ data.map (fun kp => kp.2) := by
  induction data with
  | nil => intro st p; simp [DatabaseManager.insert_plex_library_files]
  | cons kp rest ih =>
    intro st p
    rw [insert_files_cons, ih]
    unfold DatabaseManager.insertRowOrIgnore
    by_cases hc : DatabaseManager.rowConflicts st.1 kp.2 = true
    · have hex : ∃ r ∈ st.1, r.file_path = kp.2 := by
        rcases List.any_eq_true.mp hc with ⟨r, hr, hp⟩
        exact ⟨r, hr, by simpa using hp⟩
      simp only [hc, if_true, List.map_cons, List.mem_cons]
      constructor
      · rintro (h1 | h2)
        · exact Or.inl h1
        · exact Or.inr (Or.inr h2)
      · rintro (h1 | he | h2)
        · exact Or.inl h1
        · subst he; exact Or.inl hex
        · exact Or.inr h2
    · rw [if_neg hc]
      simp only [List.map_cons, List.mem_cons, List.mem_append,
        List.not_mem_nil, or_false]
      constructor
      · rintro (⟨r, hr | hr, hp⟩ | h2)
        · exact Or.inl ⟨r, hr, hp⟩
        · subst hr; exact Or.inr (Or.inl hp.symm)
        · exact Or.inr (Or.inr h2)
      · rintro (⟨r, hr, hp⟩ | he | h2)
        · exact Or.inl ⟨r, Or.inl hr, hp⟩
        · exact Or.inl ⟨_, Or.inr rfl, he.symm⟩
        · exact Or.inr h2

/-- Every row of the result was a prior row or carries a pair from the
inserted data (no other mutation happens). -/
theorem insert_files_rows_from (data : List (Int × String)) :
    ∀ (st : List DBRow × Nat) (r : DBRow),
      r ∈ (DatabaseManager.insert_plex_library_files st data).1 →
      r ∈ st.1 ∨ (r.library_key, r.file_path) ∈ data := by
  induction data with
  | nil => intro st r h; exact Or.inl h
  | cons kp rest ih =>
    intro st r h
    rw [insert_files_cons] at h
    rcases ih _ r h with h1 | h2
    · unfold DatabaseManager.insertRowOrIgnore at h1
      by_cases hc : DatabaseManager.rowConflicts st.1 kp.2 = true
      · rw [if_pos hc] at h1
        exact Or.inl h1
      · rw [if_neg hc] at h1
        simp only [List.mem_append, List.mem_singleton] at h1
        rcases h1 with h1 | h1
        · exact Or.inl h1
        · subst h1; exact Or.inr (List.mem_cons_self _ _)
    · exact Or.inr (List.mem_cons_of_mem _ h2)

/-- C6 counterexample: inserting `(1, "/p")` and then `(2, "/p")` into an
empty store leaves a single record: the second insert is ignored because
the UNIQUE constraint is on `file_path` alone, although no record with
the pair `(2, "/p")` existed.  The store therefore cannot hold two
records with the same path and different library ids, and bulk insert
does not add a record whenever the pair is absent. -/
theorem C6_counterexample :
    (DatabaseManager.insert_plex_library_files ([], 1) [(1, "/p"), (2, "/p")]).1 =
      [⟨1, 1, "/p"⟩] ∧
    ¬ ∃ r ∈ (DatabaseManager.insert_plex_library_files ([], 1)
        [(1, "/p"), (2, "/p")]).1, r.library_key = 2 := by
  decide

/-- C6 amended: known-file records are unique on `file_path` alone: bulk
insert appends a record exactly when no record with that `file_path`
exists (regardless of library id), keeps every existing record unchanged
(append-only, no updates, no deletes), and preserves the uniqueness of
paths. -/
theorem C6_unique_on_file_path (rows : List DBRow) (n : Nat)
    (data : List (Int × String))
    (hnd : (rows.map (fun r => r.file_path)).Nodup) :
    rows <+: (DatabaseManager.insert_plex_library_files (rows, n) data).1 ∧
    ((DatabaseManager.insert_plex_library_files (rows, n) data).1.map
      (fun r => r.file_path)).Nodup ∧
    (∀ p, (∃ r ∈ (DatabaseManager.insert_plex_library_files (rows, n) data).1,
        r.file_path = p) ↔
      (∃ r ∈ rows, r.file_path = p) ∨ p ∈ data.map (fun kp => kp.2)) ∧
    (∀ r ∈ (DatabaseManager.insert_plex_library_files (rows, n) data).1,
      r ∈ rows ∨ (r.library_key, r.file_path) ∈ data) ∧
    (∀ r ∈ rows,
      ∀ r' ∈ (DatabaseManager.insert_plex_library_files (rows, n) data).1,
        r'.file_path = r.file_path → r' = r) := by
  have hpre := insert_files_keeps_rows data (rows, n)
  have hnd' := insert_files_nodup data (rows, n) hnd
  refine ⟨hpre, hnd', insert_files_mem data (rows, n),
    insert_files_rows_from data (rows, n), ?_⟩
  intro r hr r' hr' hpath
  have hrmem : r ∈ (DatabaseManager.insert_plex_library_files (rows, n) data).1 :=
    hpre.sublist.mem hr
  exact List.inj_on_of_nodup_map hnd' hr' hrmem hpath

/-- C6 amended, concrete witness: a store holding `(1, "/x")`, into which
`(2, "/x")` and `(3, "/y")` are bulk-inserted. -/
theorem C6_unique_on_file_path_witness :
    (([⟨1, 1, "/x"⟩] : List DBRow).map (fun r => r.file_path)).Nodup ∧
    ([⟨1, 1, "/x"⟩] : List DBRow) <+:
      (DatabaseManager.insert_plex_library_files ([⟨1, 1, "/x"⟩], 2)
        [(2, "/x"), (3, "/y")]).1 :=
  ⟨by decide,
   (C6_unique_on_file_path [⟨1, 1, "/x"⟩] 2 [(2, "/x"), (3, "/y")] (by decide)).1⟩

/-! ## Claim C5: a per-item exception aborts the remaining walk -/

/-- A successfully processed entry contributes exactly its optional
request. -/
theorem okEmits_ok (o : Option (String × String)) :
    okEmits (Except.ok o) = o.toList := by
  cases o <;> rfl

/-- Concrete sections for the error-isolation scenario. -/
def c5Sections : List LibraryInfo := [⟨"L", "1", ["/a"], "movie", "ag", "sc"⟩]

/-- Known-file lookup that raises on the file `/a/bad.mkv` and reports
every other file as absent. -/
def c5knownE (_k p : String) : Except Unit Bool :=
  if p == "/a/bad.mkv" then Except.error () else Except.ok false

/-- Scan-request call that always succeeds. -/
def c5sendE (_k _p : String) : Except Unit Unit := Except.ok ()

/-- A walk of the root `/a` enumerating a failing file before a good one. -/
def c5walk (r : String) : List (String × String) :=
  if r == "/a" then [("/a", "bad.mkv"), ("/a", "good.mkv")] else []

/-- C5 counterexample: with the walk enumerating `bad.mkv` before
`good.mkv` and the known-file lookup raising on `bad.mkv`, `full_scan`
issues no request at all — in particular none for `good.mkv` — although
`good.mkv` is a qualifying, resolvable, unknown file whose processing
would have issued the request `("1", "/a/good.mkv")`.  The exception in
one file's processing therefore aborts the processing of the remaining
files, contradicting per-item isolation. -/
theorem C5_counterexample :
    (full_scanE ["/a"] (fun _ => true) c5walk c5Sections [".mkv"]
        c5knownE c5sendE).1 = [] ∧
    (full_scanE ["/a"] (fun _ => true) c5walk c5Sections [".mkv"]
        c5knownE c5sendE).2 = true ∧
    processItemE c5Sections [".mkv"] c5knownE c5sendE ("/a", "good.mkv") =
      Except.ok (some ("1", "/a/good.mkv")) := by
  refine ⟨rfl, rfl, rfl⟩

/-- C5 amended: per-item failure isolation does not hold in the startup
reconciliation: `full_scan` wraps the entire walk in one `try`, so the
first exception raised while processing a single file (its known-file
lookup or its scan request) aborts the processing of every remaining
file of the walk; the exception is caught at the `full_scan` boundary,
so the requests already issued stand and the process continues.  The
theorem: if every entry before `bad` processes without exception and
`bad` raises, the emitted requests are exactly those of the entries
before `bad`, and nothing after `bad` is processed. -/
theorem C5_exception_aborts_walk (sections : List LibraryInfo)
    (mediaExts : List String) (knownE : String → String → Except Unit Bool)
    (sendE : String → String → Except Unit Unit)
    (L1 L2 : List (String × String)) (bad : String × String)
    (h1 : ∀ rf ∈ L1,
      (processItemE sections mediaExts knownE sendE rf).isOk = true)
    (h2 : (processItemE sections mediaExts knownE sendE bad).isOk = false) :
    full_scanE_go sections mediaExts knownE sendE (L1 ++ bad :: L2) =
      (L1.flatMap
        (fun rf => okEmits (processItemE sections mediaExts knownE sendE rf)),
       true) := by
  induction L1 with
  | nil =>
    cases hpe : processItemE sections mediaExts knownE sendE bad with
    | error e => simp [full_scanE_go, hpe]
    | ok o => rw [hpe] at h2; simp [Except.isOk, Except.toBool] at h2
  | cons rf rest ih =>
    have hok : (processItemE sections mediaExts knownE sendE rf).isOk = true :=
      h1 rf (List.mem_cons_self _ _)
    cases hpe : processItemE sections mediaExts knownE sendE rf with
    | error e => rw [hpe] at hok; simp [Except.isOk, Except.toBool] at hok
    | ok o =>
      have ih' := ih (fun x hx => h1 x (List.mem_cons_of_mem _ hx))
      simp only [List.cons_append, full_scanE_go, hpe, List.flatMap_cons,
        okEmits_ok, List.append_eq]
      rw [ih']

/-- C5 amended, concrete witness: one clean entry, then the raising one,
then an entry that is never processed. -/
theorem C5_exception_aborts_walk_witness :
    (∀ rf ∈ [(("/a" : String), ("ok.mkv" : String))],
      (processItemE c5Sections [".mkv"] c5knownE c5sendE rf).isOk = true) ∧
    full_scanE_go c5Sections [".mkv"] c5knownE c5sendE
        ([("/a", "ok.mkv")] ++ ("/a", "bad.mkv") :: [("/a", "late.mkv")]) =
      ([("/a", "ok.mkv")].flatMap
        (fun rf => okEmits (processItemE c5Sections [".mkv"] c5knownE c5sendE rf)),
       true) :=
  ⟨by decide,
   C5_exception_aborts_walk c5Sections [".mkv"] c5knownE c5sendE
     [("/a", "ok.mkv")] [("/a", "late.mkv")] ("/a", "bad.mkv")
     (by decide) (by decide)⟩

/-! ## Claim C2: characterisation of the reconciliation emissions -/

/-- Inversion of the per-entry emission: a request is produced for a walk
entry exactly when the file qualifies, a library resolves for the joined
path, and the pair is absent from the store; the request is then the
resolved key with the joined path. -/
theorem emitOne_some_iff (sections : List LibraryInfo)
    (mediaExts : List String) (known : String → String → Bool)
    (rf : String × String) (e : String × String) :
    emitOne sections mediaExts known rf = some e ↔
      (qualifies mediaExts rf.2 = true ∧
       ∃ lib, find_library_by_path sections (joinPath rf.1 rf.2) = some lib ∧
         known lib.key (joinPath rf.1 rf.2) = false ∧
         e = (lib.key, joinPath rf.1 rf.2)) := by
  cases hq : qualifies mediaExts rf.2 with
  | false => simp [emitOne, hq]
  | true =>
    cases hf : find_library_by_path sections (joinPath rf.1 rf.2) with
    | none => simp [emitOne, hq, hf]
    | some lib =>
      cases hk : known lib.key (joinPath rf.1 rf.2) with
      | false =>
        have hem : emitOne sections mediaExts known rf
            = some (lib.key, joinPath rf.1 rf.2) := by
          simp [emitOne, hq, hf, hk]
        rw [hem]
        constructor
        · intro h
          injection h with h
          exact ⟨rfl, lib, rfl, hk, h.symm⟩
        · rintro ⟨-, lib', hl', -, he⟩
          injection hl' with hl'
          subst hl'
          rw [he]
      | true =>
        have hem : emitOne sections mediaExts known rf = none := by
          simp [emitOne, hq, hf, hk]
        rw [hem]
        constructor
        · intro h; cases h
        · rintro ⟨-, lib', hl', hk', -⟩
          injection hl' with hl'
          subst hl'
          rw [hk] at hk'
          cases hk'

/-- The per-entry emission is some exactly under the qualifying
conditions. -/
theorem emitOne_isSome_iff (sections : List LibraryInfo)
    (mediaExts : List String) (known : String → String → Bool)
    (rf : String × String) :
    (emitOne sections mediaExts known rf).isSome = true ↔
      (qualifies mediaExts rf.2 = true ∧
       ∃ lib, find_library_by_path sections (joinPath rf.1 rf.2) = some lib ∧
         known lib.key (joinPath rf.1 rf.2) = false) := by
  rw [Option.isSome_iff_exists]
  constructor
  · rintro ⟨e, he⟩
    rcases (emitOne_some_iff sections mediaExts known rf e).mp he with
      ⟨hq, lib, hf, hk, _⟩
    exact ⟨hq, lib, hf, hk⟩
  · rintro ⟨hq, lib, hf, hk⟩
    exact ⟨(lib.key, joinPath rf.1 rf.2),
      (emitOne_some_iff sections mediaExts known rf _).mpr
        ⟨hq, lib, hf, hk, rfl⟩⟩

/-- The reconciliation is the per-entry emission mapped over the
flattened walk. -/
theorem full_scan_eq_filterMap (paths : List String) (existsP : String → Bool)
    (walk : String → List (String × String)) (sections : List LibraryInfo)
    (mediaExts : List String) (known : String → String → Bool) :
    full_scan paths existsP walk sections mediaExts known =
      (walkItems paths existsP walk).filterMap
        (emitOne sections mediaExts known) := by
  unfold full_scan walkItems
  induction paths.filter existsP with
  | nil => rfl
  | cons lp rest ih => simp [List.flatMap_cons, List.filterMap_append, ih]

/-- Counting requests for one path through the per-entry emission. -/
theorem countP_filterMap_emitOne (sections : List LibraryInfo)
    (mediaExts : List String) (known : String → String → Bool) (fp : String)
    (L : List (String × String)) :
    (L.filterMap (emitOne sections mediaExts known)).countP
        (fun e => e.2 == fp) =
      L.countP (fun rf => (emitOne sections mediaExts known rf).isSome &&
        (joinPath rf.1 rf.2 == fp)) := by
  induction L with
  | nil => rfl
  | cons rf rest ih =>
    cases he : emitOne sections mediaExts known rf with
    | none =>
      rw [List.filterMap_cons_none he, List.countP_cons, ih]
      simp [he]
    | some e =>
      have hpath : e.2 = joinPath rf.1 rf.2 := by
        rcases (emitOne_some_iff sections mediaExts known rf e).mp he with
          ⟨_, lib, _, _, hce⟩
        rw [hce]
      rw [List.filterMap_cons_some he, List.countP_cons, List.countP_cons, ih,
        hpath]
      simp [he]

/-- C2 amended: on a run of the startup reconciliation in which the walk
enumerates the path `fp` exactly once (as entry `rf` of the enumeration;
duplicate or overlapping configured roots can enumerate a path several
times, and then emit several requests), exactly one scan request is
emitted for `fp` when `rf` is a non-hidden file with a configured media
extension, a library resolves for `fp`, and the pair (resolved key, `fp`)
is absent from the known-file store — and no request at all otherwise,
in particular none when the pair is already present; every request
emitted for `fp` carries the resolved library's key. -/
theorem C2_reconciliation_requests (paths : List String)
    (existsP : String → Bool) (walk : String → List (String × String))
    (sections : List LibraryInfo) (mediaExts : List String)
    (known : String → String → Bool) (fp : String) (rf : String × String)
    (h0 : rf ∈ walkItems paths existsP walk)
    (hj : joinPath rf.1 rf.2 = fp)
    (huniq : (walkItems paths existsP walk).countP
        (fun x => joinPath x.1 x.2 == fp) = 1) :
    ((full_scan paths existsP walk sections mediaExts known).countP
        (fun e => e.2 == fp) =
      if (emitOne sections mediaExts known rf).isSome then 1 else 0) ∧
    ((emitOne sections mediaExts known rf).isSome = true ↔
      (qualifies mediaExts rf.2 = true ∧
        ∃ lib, find_library_by_path sections fp = some lib ∧
          known lib.key fp = false)) ∧
    (∀ e ∈ full_scan paths existsP walk sections mediaExts known, e.2 = fp →
      ∃ lib, find_library_by_path sections fp = some lib ∧
        known lib.key fp = false ∧ e = (lib.key, fp)) := by
  have hfilter : (walkItems paths existsP walk).filter
      (fun x => joinPath x.1 x.2 == fp) = [rf] := by
    have hlen : ((walkItems paths existsP walk).filter
        (fun x => joinPath x.1 x.2 == fp)).length = 1 := by
      rw [← List.countP_eq_length_filter]
      exact huniq
    rcases List.length_eq_one.mp hlen with ⟨a, ha⟩
    have hmem : rf ∈ (walkItems paths existsP walk).filter
        (fun x => joinPath x.1 x.2 == fp) :=
      List.mem_filter.mpr ⟨h0, by simp [hj]⟩
    rw [ha] at hmem
    rcases List.mem_singleton.mp hmem with rfl
    exact ha
  refine ⟨?_, ?_, ?_⟩
  · rw [full_scan_eq_filterMap, countP_filterMap_emitOne,
      ← List.countP_filter, hfilter]
    simp [List.countP_cons]
  · simpa [hj] using emitOne_isSome_iff sections mediaExts known rf
  · intro e he hefp
    rw [full_scan_eq_filterMap] at he
    rcases List.mem_filterMap.mp he with ⟨x, _, hx⟩
    rcases (emitOne_some_iff sections mediaExts known x e).mp hx with
      ⟨-, lib, hfind, hk, hee⟩
    have hxfp : joinPath x.1 x.2 = fp := by rw [hee] at hefp; exact hefp
    rw [hxfp] at hfind hk hee
    exact ⟨lib, hfind, hk, hee⟩

/-- Sections for the duplicate-root reconciliation scenario. -/
def c2Sections : List LibraryInfo := [⟨"L", "1", ["/a"], "movie", "ag", "sc"⟩]

/-- A walk of the root `/a` holding one media file. -/
def c2walk (r : String) : List (String × String) :=
  if r == "/a" then [("/a", "m.mkv")] else []

/-- C2 counterexample: with the root `/a` configured twice, the startup
reconciliation walks it twice and emits two scan requests for the single
qualifying, resolvable file `/a/m.mkv` absent from the store (the store
is empty), not exactly one. -/
theorem C2_counterexample :
    ((full_scan ["/a", "/a"] (fun _ => true) c2walk c2Sections [".mkv"]
        (fun _ _ => false)).countP (fun e => e.2 == "/a/m.mkv")) = 2 ∧
    qualifies [".mkv"] "m.mkv" = true ∧
    find_library_by_path c2Sections "/a/m.mkv" =
      some ⟨"L", "1", ["/a"], "movie", "ag", "sc"⟩ := by
  decide

/-- C2 amended, concrete witness: a single root enumerating `/a/m.mkv`
once, with an empty store. -/
theorem C2_reconciliation_requests_witness :
    (("/a", "m.mkv")) ∈ walkItems ["/a"] (fun _ => true) c2walk ∧
    ((full_scan ["/a"] (fun _ => true) c2walk c2Sections [".mkv"]
        (fun _ _ => false)).countP (fun e => e.2 == "/a/m.mkv") =
      if (emitOne c2Sections [".mkv"] (fun _ _ => false) ("/a", "m.mkv")).isSome
      then 1 else 0) :=
  ⟨by decide,
   (C2_reconciliation_requests ["/a"] (fun _ => true) c2walk c2Sections
     [".mkv"] (fun _ _ => false) "/a/m.mkv" ("/a", "m.mkv") (by decide)
     (by decide) (by decide)).1⟩

/-! ## Dictionary lemmas for the batch manager -/

namespace BatchScanManager

/-- Decidability of the well-formedness of the pending map. -/
instance (l : List (String × PendingScan)) : Decidable (WFpending l) := by
  unfold WFpending
  exact List.decidableBAll _ l

/-- Decidability of key uniqueness of the pending map. -/
instance (l : List (String × PendingScan)) : Decidable (NodupKeys l) := by
  unfold NodupKeys
  exact List.nodupDecidable _

/-- Writing a key and then reading it yields the written entry. -/
theorem lookup_insert_self (l : List (String × PendingScan)) (k : String)
    (v : PendingScan) : lookupPending (insertPending l k v) k = some v := by
  induction l with
  | nil => simp [insertPending, lookupPending]
  | cons kv rest ih =>
    obtain ⟨k', v'⟩ := kv
    by_cases h : k' = k
    · simp [insertPending, h, lookupPending]
    · simp [insertPending, h, lookupPending, ih]

/-- Writing one key leaves reads of any other key unchanged. -/
theorem lookup_insert_other (l : List (String × PendingScan)) (k k' : String)
    (v : PendingScan) (h : k' ≠ k) :
    lookupPending (insertPending l k v) k' = lookupPending l k' := by
  induction l with
  | nil =>
    simp only [insertPending, lookupPending]
    rw [if_neg (fun he => h he.symm)]
  | cons kv rest ih =>
    obtain ⟨k₀, v₀⟩ := kv
    simp only [insertPending]
    by_cases h0 : k₀ = k
    · rw [if_pos h0]
      subst h0
      simp only [lookupPending]
      rw [if_neg (fun he => h he.symm), if_neg (fun he => h he.symm)]
    · rw [if_neg h0]
      simp only [lookupPending]
      by_cases h1 : k₀ = k'
      · rw [if_pos h1, if_pos h1]
      · rw [if_neg h1, if_neg h1, ih]

/-- An entry of the map after a write is the written binding or an old
entry. -/
theorem mem_insert (l : List (String × PendingScan)) (k : String)
    (v : PendingScan) (kv : String × PendingScan)
    (h : kv ∈ insertPending l k v) : kv = (k, v) ∨ kv ∈ l := by
  induction l with
  | nil =>
    simp only [insertPending] at h
    rcases List.mem_singleton.mp h with rfl
    exact Or.inl rfl
  | cons kv₀ rest ih =>
    obtain ⟨k₀, v₀⟩ := kv₀
    by_cases h0 : k₀ = k
    · rw [insertPending, if_pos h0] at h
      rcases List.mem_cons.mp h with rfl | hr
      · exact Or.inl rfl
      · exact Or.inr (List.mem_cons_of_mem _ hr)
    · rw [insertPending, if_neg h0] at h
      rcases List.mem_cons.mp h with rfl | hr
      · exact Or.inr (List.mem_cons_self _ _)
      · rcases ih hr with h1 | h1
        · exact Or.inl h1
        · exact Or.inr (List.mem_cons_of_mem _ h1)

/-- Key membership after a write. -/
theorem mem_keys_insert (l : List (String × PendingScan)) (k : String)
    (v : PendingScan) (x : String) :
    x ∈ (insertPending l k v).map (fun kv => kv.1) ↔
      x = k ∨ x ∈ l.map (fun kv => kv.1) := by
  induction l with
  | nil => simp [insertPending]
  | cons kv rest ih =>
    obtain ⟨k', v'⟩ := kv
    simp only [insertPending]
    by_cases h : k' = k
    · rw [if_pos h]
      subst h
      simp only [List.map_cons, List.mem_cons]
      tauto
    · rw [if_neg h]
      simp only [List.map_cons, List.mem_cons, ih]
      tauto

/-- A write preserves key uniqueness. -/
theorem NodupKeys_insert (l : List (String × PendingScan)) (k : String)
    (v : PendingScan) (h : NodupKeys l) : NodupKeys (insertPending l k v) := by
  unfold NodupKeys at h ⊢
  induction l with
  | nil => simp [insertPending]
  | cons kv rest ih =>
    obtain ⟨k', v'⟩ := kv
    rw [List.map_cons, List.nodup_cons] at h
    by_cases hk : k' = k
    · subst hk
      rw [insertPending, if_pos rfl, List.map_cons, List.nodup_cons]
      exact h
    · rw [insertPending, if_neg hk, List.map_cons, List.nodup_cons]
      constructor
      · intro hmem
        rcases (mem_keys_insert rest k v k').mp hmem with h1 | h1
        · exact hk h1
        · exact h.1 h1
      · exact ih h.2

/-- A write of a well-keyed binding preserves well-formedness. -/
theorem WFpending_insert (l : List (String × PendingScan)) (k : String)
    (v : PendingScan) (h : WFpending l)
    (hk : k = scanKey v.library_key v.parent_dir) :
    WFpending (insertPending l k v) := by
  intro kv hkv
  rcases mem_insert l k v kv hkv with rfl | h1
  · exact hk
  · exact h kv h1

/-- Filtering preserves well-formedness. -/
theorem WFpending_filter (l : List (String × PendingScan))
    (p : String × PendingScan → Bool) (h : WFpending l) :
    WFpending (l.filter p) := by
  intro kv hkv
  exact h kv (List.mem_of_mem_filter hkv)

/-- Filtering preserves key uniqueness. -/
theorem NodupKeys_filter (l : List (String × PendingScan))
    (p : String × PendingScan → Bool) (h : NodupKeys l) :
    NodupKeys (l.filter p) := by
  unfold NodupKeys at h ⊢
  exact ((List.filter_sublist l).map _).nodup h

/-- A key reads as `none` exactly when it appears nowhere in the map. -/
theorem lookup_eq_none_iff (l : List (String × PendingScan)) (k : String) :
    lookupPending l k = none ↔ ∀ kv ∈ l, kv.1 ≠ k := by
  induction l with
  | nil => simp [lookupPending]
  | cons kv rest ih =>
    obtain ⟨k', v'⟩ := kv
    by_cases h : k' = k
    · simp [lookupPending, h]
    · simp [lookupPending, h, ih]

/-- Filtering cannot create a key that was absent. -/
theorem lookup_filter_none (l : List (String × PendingScan)) (k : String)
    (p : String × PendingScan → Bool)
    (h : lookupPending l k = none) : lookupPending (l.filter p) k = none := by
  rw [lookup_eq_none_iff] at h ⊢
  intro kv hkv
  exact h kv (List.mem_of_mem_filter hkv)

/-- A successful read exhibits a member of the map. -/
theorem lookup_mem (l : List (String × PendingScan)) (k : String)
    (v : PendingScan) (h : lookupPending l k = some v) : (k, v) ∈ l := by
  induction l with
  | nil => cases h
  | cons kv rest ih =>
    obtain ⟨k', v'⟩ := kv
    by_cases hk : k' = k
    · rw [lookupPending, if_pos hk] at h
      injection h with h
      subst h
      subst hk
      exact List.mem_cons_self _ _
    · rw [lookupPending, if_neg hk] at h
      exact List.mem_cons_of_mem _ (ih h)

/-- In a map with unique keys, membership determines the read. -/
theorem mem_lookup (l : List (String × PendingScan)) (k : String)
    (v : PendingScan) (hnd : NodupKeys l) (h : (k, v) ∈ l) :
    lookupPending l k = some v := by
  induction l with
  | nil => cases h
  | cons kv rest ih =>
    obtain ⟨k', v'⟩ := kv
    unfold NodupKeys at hnd
    rw [List.map_cons, List.nodup_cons] at hnd
    rcases List.mem_cons.mp h with he | hr
    · injection he with he₁ he₂
      subst he₁
      subst he₂
      rw [lookupPending, if_pos rfl]
    · by_cases hk : k' = k
      · exfalso
        subst hk
        exact hnd.1 (List.mem_map.mpr ⟨(k', v), hr, rfl⟩)
      · rw [lookupPending, if_neg hk]
        exact ih hnd.2 hr

/-- In a unique-keys map, a binding surviving the filter is still read. -/
theorem lookup_filter_keep (l : List (String × PendingScan)) (k : String)
    (v : PendingScan) (p : String × PendingScan → Bool) (hnd : NodupKeys l)
    (hl : lookupPending l k = some v) (hp : p (k, v) = true) :
    lookupPending (l.filter p) k = some v := by
  induction l with
  | nil => cases hl
  | cons kv rest ih =>
    obtain ⟨k', v'⟩ := kv
    unfold NodupKeys at hnd
    rw [List.map_cons, List.nodup_cons] at hnd
    by_cases hk : k' = k
    · rw [lookupPending, if_pos hk] at hl
      injection hl with hl
      subst hl
      subst hk
      rw [List.filter_cons, if_pos hp, lookupPending, if_pos rfl]
    · rw [lookupPending, if_neg hk] at hl
      rw [List.filter_cons]
      by_cases hq : p (k', v') = true
      · rw [if_pos hq, lookupPending, if_neg hk]
        exact ih hnd.2 hl
      · rw [if_neg hq]
        exact ih hnd.2 hl

/-- In a unique-keys map, a binding removed by the filter reads as
`none` afterwards. -/
theorem lookup_filter_drop (l : List (String × PendingScan)) (k : String)
    (v : PendingScan) (p : String × PendingScan → Bool) (hnd : NodupKeys l)
    (hl : lookupPending l k = some v) (hp : p (k, v) = false) :
    lookupPending (l.filter p) k = none := by
  induction l with
  | nil => cases hl
  | cons kv rest ih =>
    obtain ⟨k', v'⟩ := kv
    unfold NodupKeys at hnd
    rw [List.map_cons, List.nodup_cons] at hnd
    by_cases hk : k' = k
    · rw [lookupPending, if_pos hk] at hl
      injection hl with hl
      subst hl
      subst hk
      rw [List.filter_cons, if_neg (by rw [hp]; exact Bool.false_ne_true)]
      rw [lookup_eq_none_iff]
      intro kv hkv hke
      exact hnd.1 (List.mem_map.mpr
        ⟨kv, List.mem_of_mem_filter hkv, hke⟩)
    · rw [lookupPending, if_neg hk] at hl
      rw [List.filter_cons]
      by_cases hq : p (k', v') = true
      · rw [if_pos hq, lookupPending, if_neg hk]
        exact ih hnd.2 hl
      · rw [if_neg hq]
        exact ih hnd.2 hl

/-- The per-pair request filter used by `emsFor`, on bare entries. -/
def pairP (library_key parent_dir : String) (w : PendingScan) : Bool :=
  w.library_key == library_key && w.parent_dir == parent_dir

/-- In a well-formed map with the pair's key absent, no entry carries
the pair. -/
theorem pair_filter_of_lookup_none (a b : String)
    (l : List (String × PendingScan)) (hwf : WFpending l)
    (hl : lookupPending l (scanKey a b) = none) :
    (l.map (fun kv => kv.2)).filter (pairP a b) = [] := by
  rw [List.filter_eq_nil_iff]
  intro w hw
  rcases List.mem_map.mp hw with ⟨kv, hkv, rfl⟩
  intro hpair
  simp only [pairP, Bool.and_eq_true, beq_iff_eq] at hpair
  have hkey := hwf kv hkv
  rw [hpair.1, hpair.2] at hkey
  exact (lookup_eq_none_iff l (scanKey a b)).mp hl kv hkv hkey

/-- In a well-formed unique-keys map holding the pair's entry, the pair
filter selects exactly that entry. -/
theorem pair_filter_of_lookup_some (a b : String)
    (l : List (String × PendingScan)) (v : PendingScan) (hwf : WFpending l)
    (hnd : NodupKeys l) (hl : lookupPending l (scanKey a b) = some v)
    (ha : v.library_key = a) (hb : v.parent_dir = b) :
    (l.map (fun kv => kv.2)).filter (pairP a b) = [v] := by
  induction l with
  | nil => cases hl
  | cons kv rest ih =>
    obtain ⟨k', v'⟩ := kv
    unfold NodupKeys at hnd
    rw [List.map_cons, List.nodup_cons] at hnd
    have hwfrest : WFpending rest := fun x hx => hwf x (List.mem_cons_of_mem _ hx)
    by_cases hk : k' = scanKey a b
    · rw [lookupPending, if_pos hk] at hl
      injection hl with hl
      subst hl
      rw [List.map_cons, List.filter_cons,
        if_pos (by simp [pairP, ha, hb])]
      have hrest : lookupPending rest (scanKey a b) = none := by
        rw [lookup_eq_none_iff]
        intro x hx hxe
        subst hk
        exact hnd.1 (List.mem_map.mpr ⟨x, hx, hxe⟩)
      rw [pair_filter_of_lookup_none a b rest hwfrest hrest]
    · rw [lookupPending, if_neg hk] at hl
      rw [List.map_cons, List.filter_cons]
      have hpair : pairP a b v' = false := by
        rcases Bool.eq_false_or_eq_true (pairP a b v') with h | h
        · exfalso
          simp only [pairP, Bool.and_eq_true, beq_iff_eq] at h
          have hkey := hwf (k', v') (List.mem_cons_self _ _)
          rw [h.1, h.2] at hkey
          exact hk hkey
        · exact h
      rw [if_neg (by rw [hpair]; exact Bool.false_ne_true)]
      exact ih hwfrest hnd.2 hl

/-- `emsFor` distributes over concatenation of emission lists. -/
theorem emsFor_append (a b : String) (x y : List (Time × PendingScan)) :
    emsFor a b (x ++ y) = emsFor a b x ++ emsFor a b y := by
  unfold emsFor
  exact List.filter_append x y

/-- Filtering timed emissions for a pair is filtering the bare entries. -/
theorem emsFor_map_time (a b : String) (t : Time) (vs : List PendingScan) :
    emsFor a b (vs.map (fun v => (t, v))) =
      (vs.filter (pairP a b)).map (fun v => (t, v)) := by
  unfold emsFor pairP
  rw [List.filter_map]
  rfl

/-- One worker iteration emits the pair's entry exactly when that entry
is present and ready. -/
theorem pollStep_emsFor_some (delay t : Time) (s : BatchState) (a b : String)
    (v : PendingScan) (hwf : WFpending s.pending) (hnd : NodupKeys s.pending)
    (hs : s.stopped = false)
    (hl : lookupPending s.pending (scanKey a b) = some v)
    (ha : v.library_key = a) (hb : v.parent_dir = b) :
    emsFor a b ((pollStep delay s t).2.map (fun w => (t, w))) =
      if isReady delay t v then [(t, v)] else [] := by
  unfold pollStep
  rw [if_neg (by rw [hs]; exact Bool.false_ne_true)]
  rw [emsFor_map_time]
  by_cases hr : isReady delay t v = true
  · rw [if_pos hr]
    have hkeep : lookupPending
        (s.pending.filter (fun kv => isReady delay t kv.2)) (scanKey a b)
        = some v :=
      lookup_filter_keep s.pending (scanKey a b) v _ hnd hl hr
    rw [pair_filter_of_lookup_some a b _ v
      (WFpending_filter _ _ hwf) (NodupKeys_filter _ _ hnd) hkeep ha hb]
    rfl
  · rw [if_neg hr]
    have hr' : isReady delay t v = false := Bool.not_eq_true _ ▸ hr
    have hdrop : lookupPending
        (s.pending.filter (fun kv => isReady delay t kv.2)) (scanKey a b)
        = none :=
      lookup_filter_drop s.pending (scanKey a b) v _ hnd hl hr'
    rw [pair_filter_of_lookup_none a b _ (WFpending_filter _ _ hwf) hdrop]
    rfl

/-- One worker iteration emits nothing for a pair whose key is absent. -/
theorem pollStep_emsFor_none (delay t : Time) (s : BatchState) (a b : String)
    (hwf : WFpending s.pending)
    (hl : lookupPending s.pending (scanKey a b) = none) :
    emsFor a b ((pollStep delay s t).2.map (fun w => (t, w))) = [] := by
  unfold pollStep
  by_cases hs : s.stopped = true
  · rw [if_pos hs]
    rfl
  · rw [if_neg hs]
    rw [emsFor_map_time]
    have hnone : lookupPending
        (s.pending.filter (fun kv => isReady delay t kv.2)) (scanKey a b)
        = none := lookup_filter_none s.pending (scanKey a b) _ hl
    rw [pair_filter_of_lookup_none a b _ (WFpending_filter _ _ hwf) hnone]
    rfl

/-- Unfolding: a trace starting with an `add` event. -/
theorem runFrom_add (delay : Time) (s : BatchState) (t : Time)
    (l d : String) (rest : List (Time × BEvent)) :
    runFrom delay s ((t, BEvent.add l d) :: rest) =
      runFrom delay (add_scan_request s l d t) rest := rfl

/-- Unfolding: a trace starting with a worker iteration. -/
theorem runFrom_poll (delay : Time) (s : BatchState) (t : Time)
    (rest : List (Time × BEvent)) :
    (runFrom delay s ((t, BEvent.poll) :: rest)).2 =
      ((pollStep delay s t).2.map (fun v => (t, v))) ++
        (runFrom delay (pollStep delay s t).1 rest).2 := rfl

/-- Once the stop event is set, no trace of further calls and worker
iterations emits anything: the worker loop body never runs again. -/
theorem run_stopped_no_emissions (delay : Time) :
    ∀ (tr : List (Time × BEvent)) (s : BatchState), s.stopped = true →
      (runFrom delay s tr).2 = [] := by
  intro tr
  induction tr with
  | nil => intro s _; rfl
  | cons e rest ih =>
    intro s hs
    obtain ⟨t, ev⟩ := e
    cases ev with
    | add l d =>
      rw [runFrom_add]
      exact ih _ hs
    | poll =>
      rw [runFrom_poll]
      have hstep : pollStep delay s t = (s, []) := by
        unfold pollStep
        rw [if_pos hs]
      rw [hstep]
      simp [ih s hs]

/-- A stop flag is never cleared by an event. -/
theorem runFrom_keeps_stopped (delay : Time) :
    ∀ (tr : List (Time × BEvent)) (s : BatchState), s.stopped = true →
      ((runFrom delay s tr).1).stopped = true := by
  intro tr
  induction tr with
  | nil => intro s hs; exact hs
  | cons e rest ih =>
    intro s hs
    obtain ⟨t, ev⟩ := e
    cases ev with
    | add l d => exact ih _ hs
    | poll =>
      have hstep : pollStep delay s t = (s, []) := by
        unfold pollStep
        rw [if_pos hs]
      show ((runFrom delay (pollStep delay s t).1 rest).1).stopped = true
      rw [hstep]
      exact ih s hs

/-- Every recorded add time of a trace is the time of an `add` event of
that trace for the same pair. -/
theorem addTimes_mem (a b : String) :
    ∀ (tr : List (Time × BEvent)) (x : Time), x ∈ addTimes a b tr →
      (x, BEvent.add a b) ∈ tr := by
  intro tr
  induction tr with
  | nil => intro x h; cases h
  | cons e rest ih =>
    intro x h
    obtain ⟨t, ev⟩ := e
    cases ev with
    | add l d =>
      by_cases hp : l = a ∧ d = b
      · rw [addTimes, if_pos hp] at h
        rcases List.mem_cons.mp h with rfl | hr
        · rw [hp.1, hp.2]
          exact List.mem_cons_self _ _
        · exact List.mem_cons_of_mem _ (ih x hr)
      · rw [addTimes, if_neg hp] at h
        exact List.mem_cons_of_mem _ (ih x h)
    | poll =>
      rw [addTimes] at h
      exact List.mem_cons_of_mem _ (ih x h)

/-- The last element of a nonempty list is an element. -/
theorem lastT_mem : ∀ (ts : List Time), ts ≠ [] → lastT ts ∈ ts := by
  intro ts
  induction ts with
  | nil => intro h; exact absurd rfl h
  | cons x rest ih =>
    intro _
    cases rest with
    | nil => rw [lastT]; exact List.mem_singleton.mpr rfl
    | cons y ys =>
      rw [lastT]
      exact List.mem_cons_of_mem _ (ih (by simp))

/-- Consecutive gaps of a time list are all strictly below the delay. -/
def gapsLT (delay : Time) : List Time → Bool
| [] => true
| [_] => true
| x :: y :: rest => decide (y - x < delay) && gapsLT delay (y :: rest)

end BatchScanManager

namespace BatchScanManager

/-- Gap condition unfolding on two leading times. -/
theorem gapsLT_cons_cons (delay x y : Time) (rest : List Time) :
    gapsLT delay (x :: y :: rest) = true ↔
      (y - x < delay ∧ gapsLT delay (y :: rest) = true) := by
  simp [gapsLT]

/-- The last time of a list headed by `τ` is at least `τ` when all later
entries are. -/
theorem lastT_cons_ge (τ : Time) (rs : List Time)
    (h : ∀ r ∈ rs, τ ≤ r) : τ ≤ lastT (τ :: rs) := by
  cases rs with
  | nil => rw [lastT]
  | cons y ys =>
    rw [lastT]
    exact h _ (lastT_mem (y :: ys) (by simp))

/-- A poll event in a trace headed by an add event sits in the tail. -/
theorem poll_mem_cons_add (p t : Time) (l d : String)
    (rest : List (Time × BEvent))
    (h : (p, BEvent.poll) ∈ (t, BEvent.add l d) :: rest) :
    (p, BEvent.poll) ∈ rest := by
  rcases List.mem_cons.mp h with he | hr
  · exact absurd (congrArg Prod.snd he) (by simp)
  · exact hr

/-- While the pair's key is absent and no add event for the pair occurs,
no trace emits a request for the pair. -/
theorem run_key_absent_no_ems (delay : Time) (a b : String) :
    ∀ (tr : List (Time × BEvent)) (s : BatchState),
      WFpending s.pending → NodupKeys s.pending →
      lookupPending s.pending (scanKey a b) = none →
      addTimes a b tr = [] →
      (∀ e ∈ tr, collideFree a b e) →
      emsFor a b (runFrom delay s tr).2 = [] := by
  intro tr
  induction tr with
  | nil => intro s _ _ _ _ _; rfl
  | cons e rest ih =>
    intro s hwf hnd hl hadd hcol
    obtain ⟨t, ev⟩ := e
    cases ev with
    | add l d =>
      by_cases hp : l = a ∧ d = b
      · simp only [addTimes] at hadd
        rw [if_pos hp] at hadd
        cases hadd
      · simp only [addTimes] at hadd
        rw [if_neg hp] at hadd
        rw [runFrom_add]
        have hkne : scanKey a b ≠ scanKey l d := by
          intro he
          exact hp (hcol (t, BEvent.add l d) (List.mem_cons_self _ _) he.symm)
        refine ih _ (WFpending_insert _ _ _ hwf rfl)
          (NodupKeys_insert _ _ _ hnd) ?_ hadd
          (fun x hx => hcol x (List.mem_cons_of_mem _ hx))
        exact (lookup_insert_other s.pending (scanKey l d) (scanKey a b)
          ⟨l, d, t⟩ hkne).trans hl
    | poll =>
      simp only [addTimes] at hadd
      rw [runFrom_poll, emsFor_append]
      rw [pollStep_emsFor_none delay t s a b hwf hl, List.nil_append]
      by_cases hs : s.stopped = true
      · have hstep : pollStep delay s t = (s, []) := by
          unfold pollStep
          rw [if_pos hs]
        rw [hstep]
        exact ih s hwf hnd hl hadd
          (fun x hx => hcol x (List.mem_cons_of_mem _ hx))
      · have hstep : (pollStep delay s t).1 =
            ⟨s.pending.filter (fun kv => !isReady delay t kv.2), s.stopped⟩ := by
          unfold pollStep
          rw [if_neg hs]
        rw [hstep]
        exact ih _ (WFpending_filter _ _ hwf) (NodupKeys_filter _ _ hnd)
          (lookup_filter_none _ _ _ hl) hadd
          (fun x hx => hcol x (List.mem_cons_of_mem _ hx))

end BatchScanManager

namespace BatchScanManager

/-- Core debounce lemma: while the pair's entry is pending with
timestamp `τ` and the remaining adds for the pair (at times `rs`, each
within the delay of its predecessor, starting from `τ`) keep refreshing
it, the run emits exactly one request for the pair, at the first worker
iteration at least `delay` after the final refresh — provided such an
iteration occurs. -/
theorem run_key_present (delay : Time) (a b : String) :
    ∀ (tr : List (Time × BEvent)) (s : BatchState) (τ : Time)
      (rs : List Time),
      s.stopped = false →
      WFpending s.pending → NodupKeys s.pending →
      lookupPending s.pending (scanKey a b) = some ⟨a, b, τ⟩ →
      List.Pairwise (fun x y => x.1 ≤ y.1) tr →
      (∀ e ∈ tr, collideFree a b e) →
      (∀ e ∈ tr, τ ≤ e.1) →
      addTimes a b tr = rs →
      gapsLT delay (τ :: rs) = true →
      (∃ p, (p, BEvent.poll) ∈ tr ∧ lastT (τ :: rs) + delay ≤ p) →
      ∃ q, emsFor a b (runFrom delay s tr).2 =
          [(q, ⟨a, b, lastT (τ :: rs)⟩)] ∧
        lastT (τ :: rs) + delay ≤ q ∧
        (∀ p, (p, BEvent.poll) ∈ tr → lastT (τ :: rs) + delay ≤ p → q ≤ p) := by
  intro tr
  induction tr with
  | nil =>
    intro s τ rs _ _ _ _ _ _ _ _ _ hpoll
    rcases hpoll with ⟨p, hp, _⟩
    cases hp
  | cons e rest ih =>
    intro s τ rs hs hwf hnd hl hpw hcol hτ hadd hgap hpoll
    obtain ⟨t, ev⟩ := e
    have hpw' := List.pairwise_cons.mp hpw
    cases ev with
    | add l d =>
      by_cases hp : l = a ∧ d = b
      · simp only [addTimes] at hadd
        rw [if_pos hp] at hadd
        obtain ⟨hpa, hpb⟩ := hp
        subst hpa
        subst hpb
        subst hadd
        have hgap' := (gapsLT_cons_cons delay τ t (addTimes l d rest)).mp hgap
        have hres := ih (add_scan_request s l d t) t (addTimes l d rest)
          hs (WFpending_insert _ _ _ hwf rfl) (NodupKeys_insert _ _ _ hnd)
          (lookup_insert_self _ _ _) hpw'.2
          (fun x hx => hcol x (List.mem_cons_of_mem _ hx))
          (fun x hx => hpw'.1 x hx) rfl hgap'.2 ?wit
        case wit =>
          rcases hpoll with ⟨p, hp', hpge⟩
          exact ⟨p, poll_mem_cons_add p t l d rest hp',
            by rw [lastT] at hpge; exact hpge⟩
        rcases hres with ⟨q, hq, hq1, hq2⟩
        refine ⟨q, ?_, ?_, ?_⟩
        · rw [runFrom_add, lastT]
          exact hq
        · rw [lastT]
          exact hq1
        · intro p hp' hpge
          rw [lastT] at hpge
          exact hq2 p (poll_mem_cons_add p t l d rest hp') hpge
      · simp only [addTimes] at hadd
        rw [if_neg hp] at hadd
        have hkne : scanKey a b ≠ scanKey l d := by
          intro he
          exact hp (hcol (t, BEvent.add l d) (List.mem_cons_self _ _) he.symm)
        have hres := ih (add_scan_request s l d t) τ rs
          hs (WFpending_insert _ _ _ hwf rfl) (NodupKeys_insert _ _ _ hnd)
          ((lookup_insert_other s.pending (scanKey l d) (scanKey a b)
            ⟨l, d, t⟩ hkne).trans hl) hpw'.2
          (fun x hx => hcol x (List.mem_cons_of_mem _ hx))
          (fun x hx => hτ x (List.mem_cons_of_mem _ hx)) hadd hgap ?wit2
        case wit2 =>
          rcases hpoll with ⟨p, hp', hpge⟩
          exact ⟨p, poll_mem_cons_add p t l d rest hp', hpge⟩
        rcases hres with ⟨q, hq, hq1, hq2⟩
        refine ⟨q, ?_, hq1, ?_⟩
        · rw [runFrom_add]
          exact hq
        · intro p hp' hpge
          exact hq2 p (poll_mem_cons_add p t l d rest hp') hpge
    | poll =>
      simp only [addTimes] at hadd
      have hstate : (pollStep delay s t).1 =
          ⟨s.pending.filter (fun kv => !isReady delay t kv.2), s.stopped⟩ := by
        unfold pollStep
        rw [if_neg (by rw [hs]; exact Bool.false_ne_true)]
      by_cases hready : delay ≤ t - τ
      · have hrs : rs = [] := by
          cases hrs0 : rs with
          | nil => rfl
          | cons r rs' =>
            exfalso
            have hr_mem : r ∈ addTimes a b rest := by
              rw [hadd, hrs0]
              exact List.mem_cons_self _ _
            have htr : t ≤ r :=
              hpw'.1 _ (addTimes_mem a b rest r hr_mem)
            have hgap1 : r - τ < delay := by
              rw [hrs0] at hgap
              exact ((gapsLT_cons_cons delay τ r rs').mp hgap).1
            linarith
        subst hrs
        rw [runFrom_poll, emsFor_append]
        have hstep := pollStep_emsFor_some delay t s a b ⟨a, b, τ⟩
          hwf hnd hs hl rfl rfl
        rw [if_pos (by unfold isReady; exact decide_eq_true hready)] at hstep
        rw [hstep]
        have hnone : lookupPending (pollStep delay s t).1.pending
            (scanKey a b) = none := by
          rw [hstate]
          exact lookup_filter_drop s.pending _ ⟨a, b, τ⟩ _ hnd hl
            (by unfold isReady; simp [hready])
        have hrest : emsFor a b
            (runFrom delay (pollStep delay s t).1 rest).2 = [] := by
          refine run_key_absent_no_ems delay a b rest _ ?_ ?_ hnone
            (by rw [hadd]) (fun x hx => hcol x (List.mem_cons_of_mem _ hx))
          · rw [hstate]
            exact WFpending_filter _ _ hwf
          · rw [hstate]
            exact NodupKeys_filter _ _ hnd
        rw [hrest]
        refine ⟨t, ?_, ?_, ?_⟩
        · rw [lastT]
          exact List.append_nil _
        · rw [lastT]
          linarith
        · intro p hp' hpge
          rcases List.mem_cons.mp hp' with he | hr
          · injection he with he1 he2
            rw [he1]
          · exact hpw'.1 _ hr
      · have hτrs : ∀ r ∈ rs, τ ≤ r := by
          intro r hr
          rw [← hadd] at hr
          exact hτ _ (List.mem_cons_of_mem _ (addTimes_mem a b rest r hr))
        have hτT : τ ≤ lastT (τ :: rs) := lastT_cons_ge τ rs hτrs
        have hnotw : ¬ (lastT (τ :: rs) + delay ≤ t) := by
          intro hT
          exact hready (by linarith)
        rw [runFrom_poll, emsFor_append]
        have hstep := pollStep_emsFor_some delay t s a b ⟨a, b, τ⟩
          hwf hnd hs hl rfl rfl
        rw [if_neg (by unfold isReady; simp [hready])] at hstep
        rw [hstep, List.nil_append]
        have hkeep : lookupPending (pollStep delay s t).1.pending
            (scanKey a b) = some ⟨a, b, τ⟩ := by
          rw [hstate]
          exact lookup_filter_keep s.pending _ ⟨a, b, τ⟩ _ hnd hl
            (by unfold isReady; simp [hready])
        have hres := ih (pollStep delay s t).1 τ rs
          (by rw [hstate]; exact hs)
          (by rw [hstate]; exact WFpending_filter _ _ hwf)
          (by rw [hstate]; exact NodupKeys_filter _ _ hnd)
          hkeep hpw'.2
          (fun x hx => hcol x (List.mem_cons_of_mem _ hx))
          (fun x hx => hτ x (List.mem_cons_of_mem _ hx)) hadd hgap ?wit3
        case wit3 =>
          rcases hpoll with ⟨p, hp', hpge⟩
          rcases List.mem_cons.mp hp' with he | hr
          · exfalso
            injection he with he1 he2
            rw [he1] at hpge
            exact hnotw hpge
          · exact ⟨p, hr, hpge⟩
        rcases hres with ⟨q, hq, hq1, hq2⟩
        refine ⟨q, hq, hq1, ?_⟩
        intro p hp' hpge
        rcases List.mem_cons.mp hp' with he | hr
        · exfalso
          injection he with he1 he2
          rw [he1] at hpge
          exact hnotw hpge
        · exact hq2 p hr hpge

end BatchScanManager

namespace BatchScanManager

/-- Debounce from an initial state in which the pair's key is absent:
with the pair's adds at times `ts` (nonempty, each within the delay of
its predecessor) and a worker iteration at least `delay` after the last
add, the run emits exactly one request for the pair, carrying the last
add's timestamp, at the first such iteration. -/
theorem run_before_first_add (delay : Time) (a b : String) (hd : 0 < delay) :
    ∀ (tr : List (Time × BEvent)) (s : BatchState) (ts : List Time),
      s.stopped = false →
      WFpending s.pending → NodupKeys s.pending →
      lookupPending s.pending (scanKey a b) = none →
      List.Pairwise (fun x y => x.1 ≤ y.1) tr →
      (∀ e ∈ tr, collideFree a b e) →
      addTimes a b tr = ts →
      ts ≠ [] →
      gapsLT delay ts = true →
      (∃ p, (p, BEvent.poll) ∈ tr ∧ lastT ts + delay ≤ p) →
      ∃ q, emsFor a b (runFrom delay s tr).2 = [(q, ⟨a, b, lastT ts⟩)] ∧
        lastT ts + delay ≤ q ∧
        (∀ p, (p, BEvent.poll) ∈ tr → lastT ts + delay ≤ p → q ≤ p) := by
  intro tr
  induction tr with
  | nil =>
    intro s ts _ _ _ _ _ _ hadd hne _ _
    exact absurd hadd.symm hne
  | cons e rest ih =>
    intro s ts hs hwf hnd hl hpw hcol hadd hne hgap hpoll
    obtain ⟨t, ev⟩ := e
    have hpw' := List.pairwise_cons.mp hpw
    cases ev with
    | add l d =>
      by_cases hp : l = a ∧ d = b
      · simp only [addTimes] at hadd
        rw [if_pos hp] at hadd
        obtain ⟨hpa, hpb⟩ := hp
        subst hpa
        subst hpb
        subst hadd
        have hres := run_key_present delay l d rest
          (add_scan_request s l d t) t (addTimes l d rest) hs
          (WFpending_insert _ _ _ hwf rfl) (NodupKeys_insert _ _ _ hnd)
          (lookup_insert_self _ _ _) hpw'.2
          (fun x hx => hcol x (List.mem_cons_of_mem _ hx))
          (fun x hx => hpw'.1 x hx) rfl hgap ?wit4
        case wit4 =>
          rcases hpoll with ⟨p, hp', hpge⟩
          exact ⟨p, poll_mem_cons_add p t l d rest hp', hpge⟩
        rcases hres with ⟨q, hq, hq1, hq2⟩
        refine ⟨q, ?_, hq1, ?_⟩
        · rw [runFrom_add]
          exact hq
        · intro p hp' hpge
          exact hq2 p (poll_mem_cons_add p t l d rest hp') hpge
      · simp only [addTimes] at hadd
        rw [if_neg hp] at hadd
        have hkne : scanKey a b ≠ scanKey l d := by
          intro he
          exact hp (hcol (t, BEvent.add l d) (List.mem_cons_self _ _) he.symm)
        have hres := ih (add_scan_request s l d t) ts hs
          (WFpending_insert _ _ _ hwf rfl) (NodupKeys_insert _ _ _ hnd)
          ((lookup_insert_other s.pending (scanKey l d) (scanKey a b)
            ⟨l, d, t⟩ hkne).trans hl) hpw'.2
          (fun x hx => hcol x (List.mem_cons_of_mem _ hx)) hadd hne hgap ?wit5
        case wit5 =>
          rcases hpoll with ⟨p, hp', hpge⟩
          exact ⟨p, poll_mem_cons_add p t l d rest hp', hpge⟩
        rcases hres with ⟨q, hq, hq1, hq2⟩
        refine ⟨q, ?_, hq1, ?_⟩
        · rw [runFrom_add]
          exact hq
        · intro p hp' hpge
          exact hq2 p (poll_mem_cons_add p t l d rest hp') hpge
    | poll =>
      simp only [addTimes] at hadd
      have hts_le : ∀ x ∈ ts, t ≤ x := by
        intro x hx
        rw [← hadd] at hx
        exact hpw'.1 _ (addTimes_mem a b rest x hx)
      have htT : t ≤ lastT ts := hts_le _ (lastT_mem ts hne)
      have hnotw : ¬ (lastT ts + delay ≤ t) := by
        intro h
        linarith
      rw [runFrom_poll, emsFor_append]
      rw [pollStep_emsFor_none delay t s a b hwf hl, List.nil_append]
      have hstate : (pollStep delay s t).1 =
          ⟨s.pending.filter (fun kv => !isReady delay t kv.2), s.stopped⟩ := by
        unfold pollStep
        rw [if_neg (by rw [hs]; exact Bool.false_ne_true)]
      have hres := ih (pollStep delay s t).1 ts
        (by rw [hstate]; exact hs)
        (by rw [hstate]; exact WFpending_filter _ _ hwf)
        (by rw [hstate]; exact NodupKeys_filter _ _ hnd)
        (by rw [hstate]; exact lookup_filter_none _ _ _ hl) hpw'.2
        (fun x hx => hcol x (List.mem_cons_of_mem _ hx)) hadd hne hgap ?wit6
      case wit6 =>
        rcases hpoll with ⟨p, hp', hpge⟩
        rcases List.mem_cons.mp hp' with he | hr
        · exfalso
          injection he with he1 he2
          rw [he1] at hpge
          exact hnotw hpge
        · exact ⟨p, hr, hpge⟩
      rcases hres with ⟨q, hq, hq1, hq2⟩
      refine ⟨q, hq, hq1, ?_⟩
      intro p hp' hpge
      rcases List.mem_cons.mp hp' with he | hr
      · exfalso
        injection he with he1 he2
        rw [he1] at hpge
        exact hnotw hpge
      · exact hq2 p hr hpge

/-- C1: rolling-window debounce.  Take any monotone trace of
`add_scan_request` calls and worker iterations in which the adds for the
pair `(a, b)` occur at times `ts`, each strictly less than
`delay_seconds` after its predecessor (each call overwriting the key's
timestamp), no other add collides with the pair's f-string key, and the
worker performs an iteration within `[last + delay, last + delay + 1]`
(it polls every second while the entry is pending).  Then the run emits
exactly one scan request for the pair over the whole trace, and that
request is emitted at a time between `last + delay` and
`last + delay + 1`; in particular nothing is emitted for the pair while
the calls continue. -/
theorem C1_rolling_window_debounce (delay : Time) (a b : String)
    (tr : List (Time × BEvent)) (ts : List Time) (hd : 0 < delay)
    (hmono : List.Pairwise (fun x y => x.1 ≤ y.1) tr)
    (hcol : ∀ e ∈ tr, collideFree a b e)
    (hts : addTimes a b tr = ts) (hne : ts ≠ [])
    (hgap : gapsLT delay ts = true)
    (p : Time) (hp : (p, BEvent.poll) ∈ tr)
    (hp1 : lastT ts + delay ≤ p) (hp2 : p ≤ lastT ts + delay + 1) :
    ∃ q, emsFor a b (runFrom delay initState tr).2 =
        [(q, ⟨a, b, lastT ts⟩)] ∧
      lastT ts + delay ≤ q ∧ q ≤ lastT ts + delay + 1 := by
  have hres := run_before_first_add delay a b hd tr initState ts rfl
    (fun kv h => absurd h (List.not_mem_nil kv)) List.nodup_nil rfl
    hmono hcol hts hne hgap ⟨p, hp, hp1⟩
  rcases hres with ⟨q, hq, hq1, hq2⟩
  exact ⟨q, hq, hq1, le_trans (hq2 p hp hp1) hp2⟩

/-- C1 witness: delay 2, adds for `("1", "/lib/a")` at times 0 and 1,
worker iterations at 1, 2, 3 and 4. -/
theorem C1_rolling_window_debounce_witness :
    ∃ q, emsFor "1" "/lib/a" (runFrom 2 initState
        [(0, BEvent.add "1" "/lib/a"), (1, BEvent.poll),
         (1, BEvent.add "1" "/lib/a"), (2, BEvent.poll),
         (3, BEvent.poll), (4, BEvent.poll)]).2 =
      [(q, ⟨"1", "/lib/a", lastT [0, 1]⟩)] ∧
    lastT [0, 1] + 2 ≤ q ∧ q ≤ lastT [0, 1] + 2 + 1 :=
  C1_rolling_window_debounce 2 "1" "/lib/a"
    [(0, BEvent.add "1" "/lib/a"), (1, BEvent.poll),
     (1, BEvent.add "1" "/lib/a"), (2, BEvent.poll),
     (3, BEvent.poll), (4, BEvent.poll)] [0, 1]
    (by norm_num) (by decide) (by decide) (by decide) (by decide)
    (by norm_num [gapsLT]) 3 (by decide) (by norm_num [lastT])
    (by norm_num [lastT])

/-- C4: shutdown flush.  `shutdown` leaves the pending map empty with
the stop flag set, emits exactly the snapshot of pending entries (one
request per pending key, regardless of age — in a well-formed
unique-keys map, exactly one emitted request carries each pending pair),
and afterwards no trace of further events makes the background worker
emit anything. -/
theorem C4_shutdown_flush (delay : Time) (s : BatchState)
    (hwf : WFpending s.pending) (hnd : NodupKeys s.pending) :
    (shutdown s).1.pending = [] ∧
    (shutdown s).1.stopped = true ∧
    (shutdown s).2 = s.pending.map (fun kv => kv.2) ∧
    (∀ kv ∈ s.pending, (shutdown s).2.filter
        (pairP kv.2.library_key kv.2.parent_dir) = [kv.2]) ∧
    (∀ tr, (runFrom delay (shutdown s).1 tr).2 = []) := by
  refine ⟨rfl, rfl, rfl, ?_, ?_⟩
  · intro kv hkv
    have hkey := hwf kv hkv
    have hlook : lookupPending s.pending
        (scanKey kv.2.library_key kv.2.parent_dir) = some kv.2 := by
      rw [← hkey]
      exact mem_lookup s.pending kv.1 kv.2 hnd (by simpa using hkv)
    exact pair_filter_of_lookup_some _ _ s.pending kv.2 hwf hnd hlook rfl rfl
  · intro tr
    exact run_stopped_no_emissions delay tr _ rfl

/-- C4 witness: one pending entry for the pair `("1", "/d")`. -/
theorem C4_shutdown_flush_witness :
    (shutdown ⟨[(scanKey "1" "/d", ⟨"1", "/d", 0⟩)], false⟩).1.pending = [] ∧
    (∀ tr, (runFrom 30
        (shutdown ⟨[(scanKey "1" "/d", ⟨"1", "/d", 0⟩)], false⟩).1 tr).2 = []) :=
  ⟨(C4_shutdown_flush 30 ⟨[(scanKey "1" "/d", ⟨"1", "/d", 0⟩)], false⟩
      (by decide) (by decide)).1,
   (C4_shutdown_flush 30 ⟨[(scanKey "1" "/d", ⟨"1", "/d", 0⟩)], false⟩
      (by decide) (by decide)).2.2.2.2⟩

/-- C10: after `shutdown` the stop event remains set forever: no trace
of further events clears it or makes a worker emit anything, while a
subsequent `add_scan_request` still inserts its `PendingScan` under its
key (the worker started for it exits immediately, its loop guard being
false). -/
theorem C10_stop_flag_persists (delay : Time) (s : BatchState)
    (a b : String) (t : Time) (tr : List (Time × BEvent))
    (hs : s.stopped = true) :
    (runFrom delay s tr).2 = [] ∧
    ((runFrom delay s tr).1).stopped = true ∧
    lookupPending (add_scan_request s a b t).pending (scanKey a b) =
      some ⟨a, b, t⟩ ∧
    (add_scan_request s a b t).stopped = true :=
  ⟨run_stopped_no_emissions delay tr s hs,
   runFrom_keeps_stopped delay tr s hs,
   lookup_insert_self _ _ _, hs⟩

/-- C10 witness: after the stop flag is set, an add at time 5 followed
by a worker iteration at time 40 emits nothing, yet the entry sits in
the map. -/
theorem C10_stop_flag_persists_witness :
    (runFrom 30 ⟨[], true⟩ [((5 : Time), BEvent.add "1" "/d"),
        ((40 : Time), BEvent.poll)]).2 = [] ∧
    lookupPending (add_scan_request ⟨[], true⟩ "1" "/d" 5).pending
      (scanKey "1" "/d") = some ⟨"1", "/d", 5⟩ :=
  ⟨(C10_stop_flag_persists 30 ⟨[], true⟩ "1" "/d" 5
      [((5 : Time), BEvent.add "1" "/d"), ((40 : Time), BEvent.poll)] rfl).1,
   (C10_stop_flag_persists 30 ⟨[], true⟩ "1" "/d" 5
      [((5 : Time), BEvent.add "1" "/d"), ((40 : Time), BEvent.poll)] rfl).2.2.1⟩

end BatchScanManager
